import Mathlib

/-!
Shallow embedding of `src/sdk/func_call.py`: the tool registry (`ToolManager`),
the registration gate (`listener`), the tool matching predicate
(`BaseTool.func_message`), the correlation entity (`Chain`) and the two task
stores (`AuthReloader`, `ChainReloader`).

Python dictionaries are embedded as association lists that preserve insertion
order (CPython dicts preserve insertion order; assigning to an existing key
keeps its position, a new key is appended at the end).  Mutating methods are
embedded as state-passing functions.  Machine-level concerns (the shared
`threading.Lock`, logging) have no observable effect on the sequential
functional behaviour modelled here and are elided.
-/

namespace FuncCall

/-- Modelled from the spec: the structured function descriptor from
`endpoint/openai.py` is not part of the analysed sources; the spec treats it as
"an opaque immutable value type with a `name` field" whose "equality is by
identity/value".  -/
structure Function where
  name : String
deriving DecidableEq, Repr

/-- Lookup in a Python dict embedded as an insertion-ordered association list:
`d.get(k)` / `d[k]`, returning the value of the (unique) entry with key `k`. -/
def dictGet {β : Type} (d : List (String × β)) (k : String) : Option β :=
  match d with
  | [] => none
  | (k1, v) :: rest => if k1 = k then some v else dictGet rest k

/-- Assignment `d[k] = v` on a Python dict: an existing key keeps its position
and gets the new value, a fresh key is appended at the end. -/
def dictInsert {β : Type} (d : List (String × β)) (k : String) (v : β) :
    List (String × β) :=
  match d with
  | [] => [(k, v)]
  | (k1, v1) :: rest =>
    if k1 = k then (k1, v) :: rest else (k1, v1) :: dictInsert rest k v

/-- Removal `d.pop(k, None)`'s effect on the dict: the entry with key `k` is
deleted, the other entries keep their order. -/
def dictRemove {β : Type} (d : List (String × β)) (k : String) :
    List (String × β) :=
  match d with
  | [] => []
  | (k1, v1) :: rest =>
    if k1 = k then rest else (k1, v1) :: dictRemove rest k

/-- Python substring containment `needle in haystack` on strings. -/
def pyIn (needle haystack : String) : Bool :=
  decide (needle.toList <:+: haystack.toList)

/-- Result type of `BaseTool.pre_check`, `Union[bool, str]` in the source. -/
inductive PreCheck where
  | ofBool (b : Bool)
  | ofStr (s : String)
deriving DecidableEq, Repr

/-- Python `_check is True`: identity with the singleton `True`; any other
bool and every string is not `True`. -/
def PreCheck.is_true : PreCheck → Bool
  | .ofBool true => true
  | _ => false

/-- Configuration-determined state and behaviour of a concrete `BaseTool`
instance.  `pattern` embeds the optional compiled `re.Pattern` as the predicate
"`pattern.match(text)` returned a match object"; by Python `re.match`
semantics that predicate is anchored at the start of the text.  `pre_check`
is the value the concrete subclass's `pre_check()` method returns. -/
structure BaseTool where
  silent : Bool := false
  function : Function
  keywords : List String
  pattern : Option (String → Bool) := none
  require_auth : Bool := false
  pre_check : PreCheck

/-- Direct embedding of `BaseTool.func_message`: scan `keywords` in order and
return `function` on the first keyword contained in the text; otherwise, if a
`pattern` is configured and matches (at the start), return `function`;
otherwise `None`. -/
def BaseTool.func_message (self : BaseTool) (message_text : String) :
    Option Function :=
  match self.keywords.find? (fun i => pyIn i message_text) with
  | some _ => some self.function
  | none =>
    match self.pattern with
    | some p => if p message_text then some self.function else none
    | none => none

/-- A concrete tool handler class.  `id` is the Python object identity of the
class object (distinct classes are distinct objects; `==` between classes is
identity).  `make` is the instance produced by calling the class with no
arguments, `tool()`: the handlers carry only class-level configuration, so
every fresh instantiation yields this same configured value. -/
structure ToolType where
  id : Nat
  make : BaseTool

/-- State of a `ToolManager`: the two parallel private dicts `__tool` and
`__function`. -/
structure ToolManager where
  tool : List (String × ToolType)
  function : List (String × Function)

/-- `ToolManager.__init__`: both dicts start empty. -/
def ToolManager.new : ToolManager :=
  ⟨[], []⟩

/-- `add_tool`: unconditional insertion of the same name into both dicts. -/
def ToolManager.add_tool (m : ToolManager) (name : String)
    (function : Function) (tool : ToolType) : ToolManager :=
  ⟨dictInsert m.tool name tool, dictInsert m.function name function⟩

/-- `get_tool`: `self.__tool.get(name)`. -/
def ToolManager.get_tool (m : ToolManager) (name : String) : Option ToolType :=
  dictGet m.tool name

/-- Linear scan of `find_tool` comparing the stored class object with the
argument; class objects compare by identity. -/
def findToolGo (tool : ToolType) : List (String × ToolType) → Option String
  | [] => none
  | (name, item) :: rest =>
    if item.id = tool.id then some name else findToolGo tool rest

/-- `find_tool`: reverse lookup of a handler class, first match wins. -/
def ToolManager.find_tool (m : ToolManager) (tool : ToolType) : Option String :=
  findToolGo tool m.tool

/-- `get_function`: `self.__function.get(name)`. -/
def ToolManager.get_function (m : ToolManager) (name : String) :
    Option Function :=
  dictGet m.function name

/-- Linear scan of `find_function` comparing descriptors; pydantic models
compare by field value. -/
def findFunctionGo (func : Function) : List (String × Function) → Option String
  | [] => none
  | (name, function) :: rest =>
    if function = func then some name else findFunctionGo func rest

/-- `find_function`: reverse lookup of a descriptor, first match wins. -/
def ToolManager.find_function (m : ToolManager) (func : Function) :
    Option String :=
  findFunctionGo func m.function

/-- `get_all_tool`: returns the `__tool` dict. -/
def ToolManager.get_all_tool (m : ToolManager) : List (String × ToolType) :=
  m.tool

/-- `get_all_function`: returns the `__function` dict. -/
def ToolManager.get_all_function (m : ToolManager) :
    List (String × Function) :=
  m.function

/-- Loop body of `run_all_check` over the entries of `__tool`: instantiate the
handler class fresh (`tool()`, embedded as `.make`), call `func_message`; the
Python truthiness test `if tool().func_message(...)` is true exactly when the
result is not `None` (pydantic model instances are always truthy).  A matching
name in `ignore` is skipped; otherwise `self.get_function(name)` is appended
verbatim (it is an `Optional` in the source, hence `Option Function` here). -/
def ToolManager.runAllCheckGo (m : ToolManager) (message_text : String)
    (ig : List String) : List (String × ToolType) → List (Option Function)
  | [] => []
  | (name, tool) :: rest =>
    if (tool.make.func_message message_text).isSome then
      if ig.contains name then m.runAllCheckGo message_text ig rest
      else m.get_function name :: m.runAllCheckGo message_text ig rest
    else m.runAllCheckGo message_text ig rest

/-- `run_all_check(message_text, ignore=None)`: `ignore` defaults to the empty
list, then every registered tool is checked in dict (= insertion) order. -/
def ToolManager.run_all_check (m : ToolManager) (message_text : String)
    (ignore : Option (List String)) : List (Option Function) :=
  m.runAllCheckGo message_text (ignore.getD []) m.get_all_tool

/-- The `listener(function)` decorator's registration effect on a manager
state: instantiate the candidate once, call `pre_check()`; only if the result
`is True` is `add_tool(function.name, function, func)` performed, otherwise
the state is unchanged (the failure is only logged).  The `isinstance` /
`issubclass` type guards of the source are enforced statically by the types
here. -/
def listener (function : Function) (func : ToolType) (m : ToolManager) :
    ToolManager :=
  if (ToolType.make func).pre_check.is_true then
    m.add_tool function.name function func
  else m

/-- Replay of a sequence of `add_tool` calls, the only mutating operation of a
`ToolManager`. -/
def ToolManager.applyAdds (m : ToolManager)
    (ops : List (String × Function × ToolType)) : ToolManager :=
  ops.foldl (fun acc op => acc.add_tool op.1 op.2.1 op.2.2) m

/-- The `Chain` pydantic model: `user_id`, `address`, `time: int = 0`, an
arbitrarily typed payload `arg` (payload type `A`), and a `uuid` string. -/
structure Chain (A : Type) where
  user_id : String
  address : String
  time : Int := 0
  arg : A
  uuid : String
deriving DecidableEq, Repr

/-- Chain construction with the `uuid` argument omitted.  In the source the
field default `uuid: str = shortuuid.uuid()` calls `shortuuid.uuid()` once,
when the `Chain` class body executes at module load; `classUuid` stands for
that single draw, and every construction that omits `uuid` receives it. -/
def Chain.mkDefaultUuid {A : Type} (classUuid : String)
    (user_id address : String) (time : Int) (arg : A) : Chain A :=
  ⟨user_id, address, time, arg, classUuid⟩

/-- State of the class-level dict `AuthReloader.auth`: `uuid → Chain`. -/
abbrev AuthStore (A : Type) := List (String × Chain A)

/-- `AuthReloader.add_task`: `self.auth[task.uuid] = task`. -/
def AuthReloader.add_task {A : Type} (st : AuthStore A) (task : Chain A) :
    AuthStore A :=
  dictInsert st task.uuid task

/-- `AuthReloader.get_task`: `self.auth.pop(uuid, None)` — returns the stored
Chain and removes it, or returns `None` leaving the store unchanged. -/
def AuthReloader.get_task {A : Type} (st : AuthStore A) (uuid : String) :
    Option (Chain A) × AuthStore A :=
  match dictGet st uuid with
  | some c => (some c, dictRemove st uuid)
  | none => (none, st)

/-- State of the class-level dict `ChainReloader.chain`:
`user_id → list of Chain`. -/
abbrev ChainStore (A : Type) := List (String × List (Chain A))

/-- Comparator realising `sort(key=lambda x: x.time, reverse=True)`:
descending by `time`.  CPython's sort is stable, which `List.mergeSort` with
this comparator reproduces: elements with equal `time` keep their relative
order. -/
def cle {A : Type} (a b : Chain A) : Bool :=
  decide (b.time ≤ a.time)

/-- `ChainReloader.add_task`: create the user's list if absent, append the
task, then stably re-sort the whole list descending by `time`. -/
def ChainReloader.add_task {A : Type} (st : ChainStore A) (task : Chain A) :
    ChainStore A :=
  let l := (dictGet st task.user_id).getD []
  dictInsert st task.user_id ((l ++ [task]).mergeSort cle)

/-- `ChainReloader.get_task`: if the user has a non-empty list, `pop()` — the
last element is removed and returned; otherwise `None` with the store
unchanged. -/
def ChainReloader.get_task {A : Type} (st : ChainStore A) (user_id : String) :
    Option (Chain A) × ChainStore A :=
  match dictGet st user_id with
  | some l =>
    if 0 < l.length then (l.getLast?, dictInsert st user_id l.dropLast)
    else (none, st)
  | none => (none, st)

/-- Replay of a sequence of `ChainReloader.add_task` calls. -/
def addAll {A : Type} (st : ChainStore A) (cs : List (Chain A)) :
    ChainStore A :=
  cs.foldl ChainReloader.add_task st

/-- Repeated `ChainReloader.get_task` calls for one user: the sequence of
Chains returned before the first absent result (bounded by `fuel`). -/
def drain {A : Type} (st : ChainStore A) (u : String) : Nat → List (Chain A)
  | 0 => []
  | fuel + 1 =>
    match ChainReloader.get_task st u with
    | (some c, st2) => c :: drain st2 u fuel
    | (none, _) => []

/-- An `AuthReloader` instance object.  In the source `auth = {}` is a class
attribute; the constructor assigns no instance attribute and no method ever
executes `self.auth = ...`, so `instAuth` — the instance's own `auth`
attribute, consulted first by Python attribute lookup — stays `none` and
every read and mutation of `self.auth` falls through to the one class-level
dict. -/
structure AuthReloaderInstance (A : Type) where
  objId : Nat
  instAuth : Option (AuthStore A)

/-- `AuthReloader()`: a fresh instance, with no instance attributes. -/
def AuthReloaderInstance.new (A : Type) (i : Nat) : AuthReloaderInstance A :=
  ⟨i, none⟩

/-- `self.auth[task.uuid] = task` through attribute resolution: the dict the
lookup resolves to (instance attribute if present, else the class dict) is the
one mutated.  Returns the updated class-level store and instance. -/
def AuthReloaderInstance.add_task {A : Type} (self : AuthReloaderInstance A)
    (classAuth : AuthStore A) (task : Chain A) :
    AuthStore A × AuthReloaderInstance A :=
  match self.instAuth with
  | none => (AuthReloader.add_task classAuth task, self)
  | some s => (classAuth, ⟨self.objId, some (AuthReloader.add_task s task)⟩)

/-- `self.auth.pop(uuid, None)` through attribute resolution. -/
def AuthReloaderInstance.get_task {A : Type} (self : AuthReloaderInstance A)
    (classAuth : AuthStore A) (uuid : String) :
    Option (Chain A) × AuthStore A × AuthReloaderInstance A :=
  match self.instAuth with
  | none =>
    ((AuthReloader.get_task classAuth uuid).1,
      (AuthReloader.get_task classAuth uuid).2, self)
  | some s =>
    ((AuthReloader.get_task s uuid).1, classAuth,
      ⟨self.objId, some (AuthReloader.get_task s uuid).2⟩)

/-- A `ChainReloader` instance object; as for `AuthReloaderInstance`, the
class attribute `chain = {}` is never shadowed by an instance attribute. -/
structure ChainReloaderInstance (A : Type) where
  objId : Nat
  instChain : Option (ChainStore A)

/-- `ChainReloader()`: a fresh instance, with no instance attributes. -/
def ChainReloaderInstance.new (A : Type) (i : Nat) : ChainReloaderInstance A :=
  ⟨i, none⟩

/-- `ChainReloader.add_task` through attribute resolution. -/
def ChainReloaderInstance.add_task {A : Type} (self : ChainReloaderInstance A)
    (classChain : ChainStore A) (task : Chain A) :
    ChainStore A × ChainReloaderInstance A :=
  match self.instChain with
  | none => (ChainReloader.add_task classChain task, self)
  | some s => (classChain, ⟨self.objId, some (ChainReloader.add_task s task)⟩)

/-- `ChainReloader.get_task` through attribute resolution. -/
def ChainReloaderInstance.get_task {A : Type} (self : ChainReloaderInstance A)
    (classChain : ChainStore A) (user_id : String) :
    Option (Chain A) × ChainStore A × ChainReloaderInstance A :=
  match self.instChain with
  | none =>
    ((ChainReloader.get_task classChain user_id).1,
      (ChainReloader.get_task classChain user_id).2, self)
  | some s =>
    ((ChainReloader.get_task s user_id).1, classChain,
      ⟨self.objId, some (ChainReloader.get_task s user_id).2⟩)

/-- Spec-side matching policy for `func_message`, written from the spec's
words: "(1) substring containment against any configured keyword, checked in
configured order, first hit wins; (2) if no keyword hits and a configured
pattern exists, a prefix-anchored regular-expression match against the message
text." -/
def specMatches (t : BaseTool) (msg : String) : Bool :=
  if t.keywords.any (fun kw => pyIn kw msg) then true
  else
    match t.pattern with
    | some p => p msg
    | none => false

/-- Spec-side description of `run_all_check`, written from the spec's words:
"for every registered tool name, instantiate the handler type fresh, invoke
`func_message`; if it matches and the name is not in `ignore`, append its
Descriptor to the result", in registry insertion order. -/
def specMatchTools (m : ToolManager) (text : String) (ignore : List String) :
    List Function :=
  (m.tool.filter
      (fun p => (p.2.make.func_message text).isSome && !(ignore.contains p.1))).filterMap
    (fun p => m.get_function p.1)

/-- The per-user entry of a chain store, the empty list when absent. -/
def entry {A : Type} (st : ChainStore A) (u : String) : List (Chain A) :=
  (dictGet st u).getD []

/-! Lemmas about the dict embedding. -/

theorem dictGet_dictInsert_self {β : Type} (d : List (String × β)) (k : String)
    (v : β) : dictGet (dictInsert d k v) k = some v := by
  induction d with
  | nil => simp [dictGet, dictInsert]
  | cons hd tl ih =>
    obtain ⟨k1, v1⟩ := hd
    by_cases h : k1 = k
    · simp [dictGet, dictInsert, h]
    · simp [dictGet, dictInsert, h, ih]

theorem dictGet_dictInsert_ne {β : Type} (d : List (String × β))
    (k k2 : String) (v : β) (h : k2 ≠ k) :
    dictGet (dictInsert d k v) k2 = dictGet d k2 := by
  induction d with
  | nil => simp [dictGet, dictInsert, Ne.symm h]
  | cons hd tl ih =>
    obtain ⟨k1, v1⟩ := hd
    by_cases h1 : k1 = k
    · subst h1
      simp [dictGet, dictInsert, Ne.symm h]
    · by_cases h2 : k1 = k2
      · simp [dictGet, dictInsert, h1, h2, h]
      · simp [dictGet, dictInsert, h1, h2, ih]

theorem dictGet_isSome_iff_mem {β : Type} (d : List (String × β))
    (k : String) : (dictGet d k).isSome = true ↔ k ∈ d.map Prod.fst := by
  induction d with
  | nil => simp [dictGet]
  | cons hd tl ih =>
    obtain ⟨k1, v1⟩ := hd
    by_cases h : k1 = k
    · simp [dictGet, h]
    · simp [dictGet, h, ih, Ne.symm h]

theorem dictGet_eq_none_of_not_mem {β : Type} (d : List (String × β))
    (k : String) (h : k ∉ d.map Prod.fst) : dictGet d k = none := by
  rcases hh : dictGet d k with _ | v
  · rfl
  · exact absurd ((dictGet_isSome_iff_mem d k).1 (by simp [hh])) h

theorem dictInsert_map_fst {β : Type} (d : List (String × β)) (k : String)
    (v : β) :
    (dictInsert d k v).map Prod.fst =
      if k ∈ d.map Prod.fst then d.map Prod.fst else d.map Prod.fst ++ [k] := by
  induction d with
  | nil => simp [dictInsert]
  | cons hd tl ih =>
    obtain ⟨k1, v1⟩ := hd
    by_cases h : k1 = k
    · simp [dictInsert, h]
    · simp only [dictInsert, h, if_false, List.map_cons, List.mem_cons, ih,
        Ne.symm h, false_or]
      by_cases hm : k ∈ tl.map Prod.fst <;> simp [hm]

theorem dictInsert_keys_nodup {β : Type} (d : List (String × β)) (k : String)
    (v : β) (h : (d.map Prod.fst).Nodup) :
    ((dictInsert d k v).map Prod.fst).Nodup := by
  rw [dictInsert_map_fst]
  by_cases hm : k ∈ d.map Prod.fst
  · simpa [hm]
  · simpa [hm] using List.Nodup.append h (by simp) (by simpa using hm)

theorem dictGet_dictRemove_self {β : Type} (d : List (String × β))
    (k : String) (h : (d.map Prod.fst).Nodup) :
    dictGet (dictRemove d k) k = none := by
  induction d with
  | nil => simp [dictGet, dictRemove]
  | cons hd tl ih =>
    obtain ⟨k1, v1⟩ := hd
    simp only [List.map_cons, List.nodup_cons] at h
    by_cases h1 : k1 = k
    · subst h1
      simpa [dictRemove] using dictGet_eq_none_of_not_mem tl k1 h.1
    · simp [dictRemove, dictGet, h1, ih h.2]

theorem dictInsert_map_fst_congr {β γ : Type} (d1 : List (String × β))
    (d2 : List (String × γ)) (k : String) (v1 : β) (v2 : γ)
    (h : d1.map Prod.fst = d2.map Prod.fst) :
    (dictInsert d1 k v1).map Prod.fst = (dictInsert d2 k v2).map Prod.fst := by
  rw [dictInsert_map_fst, dictInsert_map_fst, h]

theorem findToolGo_eq_none (t : ToolType) :
    ∀ (l : List (String × ToolType)), (∀ p ∈ l, p.2.id ≠ t.id) →
      findToolGo t l = none := by
  intro l
  induction l with
  | nil => intro _; rfl
  | cons hd tl ih =>
    intro h
    obtain ⟨name, item⟩ := hd
    have h1 : item.id ≠ t.id := h (name, item) (List.mem_cons_self _ _)
    simp only [findToolGo, h1, if_false]
    exact ih (fun p hp => h p (List.mem_cons_of_mem _ hp))

theorem findFunctionGo_eq_none (f : Function) :
    ∀ (l : List (String × Function)), (∀ p ∈ l, p.2 ≠ f) →
      findFunctionGo f l = none := by
  intro l
  induction l with
  | nil => intro _; rfl
  | cons hd tl ih =>
    intro h
    obtain ⟨name, g⟩ := hd
    have h1 : g ≠ f := h (name, g) (List.mem_cons_self _ _)
    simp only [findFunctionGo, h1, if_false]
    exact ih (fun p hp => h p (List.mem_cons_of_mem _ hp))

theorem applyAdds_keys (ops : List (String × Function × ToolType)) :
    ∀ (m : ToolManager), m.tool.map Prod.fst = m.function.map Prod.fst →
      (ToolManager.applyAdds m ops).tool.map Prod.fst
        = (ToolManager.applyAdds m ops).function.map Prod.fst := by
  induction ops with
  | nil => intro m h; exact h
  | cons op rest ih =>
    intro m h
    exact ih (m.add_tool op.1 op.2.1 op.2.2)
      (dictInsert_map_fst_congr m.tool m.function op.1 op.2.2 op.2.1 h)

theorem runAllCheckGo_eq (m : ToolManager) (text : String) (ig : List String) :
    ∀ (entries : List (String × ToolType)),
      m.runAllCheckGo text ig entries =
        (entries.filter
            (fun p => (p.2.make.func_message text).isSome && !(ig.contains p.1))).map
          (fun p => m.get_function p.1) := by
  intro entries
  induction entries with
  | nil => rfl
  | cons hd tl ih =>
    obtain ⟨name, tool⟩ := hd
    by_cases h1 : (tool.make.func_message text).isSome
    · by_cases h2 : name ∈ ig
      · simp [ToolManager.runAllCheckGo, h1, h2, ih]
      · simp [ToolManager.runAllCheckGo, h1, h2, ih]
    · simp [ToolManager.runAllCheckGo, h1, ih]

theorem filterMap_map_some {α β : Type} (f : α → Option β) :
    ∀ (l : List α), (∀ x ∈ l, (f x).isSome) →
      (l.filterMap f).map some = l.map f := by
  intro l
  induction l with
  | nil => intro _; rfl
  | cons a tl ih =>
    intro h
    have ha := h a (List.mem_cons_self _ _)
    rcases hfa : f a with _ | b
    · rw [hfa] at ha
      simp at ha
    · simp only [List.filterMap_cons, hfa, List.map_cons]
      rw [ih (fun x hx => h x (List.mem_cons_of_mem _ hx))]

theorem cle_trans {A : Type} : ∀ (a b c : Chain A),
    cle a b → cle b c → cle a c := by
  intro a b c h1 h2
  simp only [cle, decide_eq_true_eq] at h1 h2 ⊢
  exact le_trans h2 h1

theorem cle_total {A : Type} : ∀ (a b : Chain A), cle a b || cle b a := by
  intro a b
  simp only [cle]
  rcases le_total a.time b.time with h | h <;> simp [h]

/-- Stability of the descending sort, per time value: the subsequence of
elements with any fixed `time` is unchanged by the sort. -/
theorem filter_time_mergeSort {A : Type} (l : List (Chain A)) (t : Int) :
    (l.mergeSort cle).filter (fun x => decide (x.time = t))
      = l.filter (fun x => decide (x.time = t)) := by
  have hpw : (l.filter (fun x => decide (x.time = t))).Pairwise
      (fun a b => cle a b) := by
    apply List.pairwise_of_forall_mem_list
    intro a ha b hb
    have ha2 := (List.mem_filter.1 ha).2
    have hb2 := (List.mem_filter.1 hb).2
    simp only [decide_eq_true_eq] at ha2 hb2
    simp [cle, ha2, hb2]
  have hsub : List.Sublist (l.filter (fun x => decide (x.time = t)))
      (l.mergeSort cle) :=
    List.sublist_mergeSort cle_trans cle_total hpw (List.filter_sublist l)
  have hid : (l.filter (fun x => decide (x.time = t))).filter
      (fun x => decide (x.time = t)) = l.filter (fun x => decide (x.time = t)) :=
    List.filter_eq_self.2 (fun a ha => (List.mem_filter.1 ha).2)
  have hsub2 := List.Sublist.filter (fun x => decide (x.time = t)) hsub
  rw [hid] at hsub2
  have hperm : ((l.mergeSort cle).filter (fun x => decide (x.time = t))).Perm
      (l.filter (fun x => decide (x.time = t))) :=
    (List.mergeSort_perm l cle).filter _
  exact (List.Sublist.eq_of_length hsub2 hperm.length_eq.symm).symm

theorem entry_add_task {A : Type} (st : ChainStore A) (c : Chain A) :
    dictGet (ChainReloader.add_task st c) c.user_id
      = some ((entry st c.user_id ++ [c]).mergeSort cle) := by
  simp only [ChainReloader.add_task, entry]
  exact dictGet_dictInsert_self st c.user_id _

/-- Invariant of repeated `add_task` for one user: the stored entry is a
permutation of the inserts after the initial entry, it is sorted descending by
`time`, and for every time value the subsequence at that time is exactly the
subsequence of the insertion order at that time (stability). -/
theorem addAll_inv {A : Type} (u : String) :
    ∀ (cs : List (Chain A)) (st : ChainStore A), (∀ c ∈ cs, c.user_id = u) →
      (entry st u).Pairwise (fun a b => cle a b) →
      ((entry (addAll st cs) u).Perm (entry st u ++ cs) ∧
        (entry (addAll st cs) u).Pairwise (fun a b => cle a b) ∧
        ∀ t : Int, (entry (addAll st cs) u).filter (fun x => decide (x.time = t))
          = (entry st u ++ cs).filter (fun x => decide (x.time = t))) := by
  intro cs
  induction cs with
  | nil =>
    intro st h hs
    exact ⟨by simp [addAll], by simpa [addAll] using hs, fun t => by simp [addAll]⟩
  | cons c rest ih =>
    intro st h hs
    have hcu : c.user_id = u := h c (List.mem_cons_self _ _)
    have hstep : entry (ChainReloader.add_task st c) u
        = (entry st u ++ [c]).mergeSort cle := by
      have h0 := entry_add_task st c
      rw [hcu] at h0
      simp only [entry, h0, Option.getD_some]
    have haddAll : addAll st (c :: rest) = addAll (ChainReloader.add_task st c) rest := rfl
    have hs2 : (entry (ChainReloader.add_task st c) u).Pairwise
        (fun a b => cle a b) := by
      rw [hstep]
      exact List.sorted_mergeSort cle_trans cle_total _
    obtain ⟨hperm, hsorted, hfilter⟩ :=
      ih (ChainReloader.add_task st c)
        (fun x hx => h x (List.mem_cons_of_mem _ hx)) hs2
    rw [haddAll]
    have hass : entry st u ++ c :: rest = (entry st u ++ [c]) ++ rest := by
      simp
    refine ⟨?_, hsorted, ?_⟩
    · have hp2 : (entry (ChainReloader.add_task st c) u ++ rest).Perm
          ((entry st u ++ [c]) ++ rest) := by
        rw [hstep]
        exact (List.mergeSort_perm _ _).append_right rest
      rw [hass]
      exact hperm.trans hp2
    · intro t
      rw [hfilter t, hstep, List.filter_append, filter_time_mergeSort,
        ← List.filter_append, ← hass]

/-- After at least one `add_task` for user `u`, the store has an entry for
`u`. -/
theorem dictGet_addAll_cons {A : Type} (u : String) :
    ∀ (cs : List (Chain A)) (st : ChainStore A), (∀ c ∈ cs, c.user_id = u) →
      cs ≠ [] → dictGet (addAll st cs) u = some (entry (addAll st cs) u) := by
  intro cs
  induction cs with
  | nil => intro st _ hne; exact absurd rfl hne
  | cons c rest ih =>
    intro st h hne
    have hcu : c.user_id = u := h c (List.mem_cons_self _ _)
    by_cases hr : rest = []
    · subst hr
      have h0 := entry_add_task st c
      rw [hcu] at h0
      have haddAll : addAll st [c] = ChainReloader.add_task st c := rfl
      rw [haddAll, h0]
      simp only [entry, h0, Option.getD_some]
    · exact ih (ChainReloader.add_task st c)
        (fun x hx => h x (List.mem_cons_of_mem _ hx)) hr

/-- Draining a store whose entry for `u` is `l` with fuel `l.length` returns
`l.reverse`: `get_task` pops from the end. -/
theorem drain_of_dictGet {A : Type} (u : String) :
    ∀ (n : Nat) (st : ChainStore A) (l : List (Chain A)),
      dictGet st u = some l → n = l.length → drain st u n = l.reverse := by
  intro n
  induction n with
  | zero =>
    intro st l hget hlen
    have hl : l = [] := List.length_eq_zero.1 hlen.symm
    subst hl
    rfl
  | succ n ih =>
    intro st l hget hlen
    have hne : l ≠ [] := by
      intro hl
      rw [hl] at hlen
      simp at hlen
    have hpos : 0 < l.length := by omega
    have hgt : ChainReloader.get_task st u
        = (l.getLast?, dictInsert st u l.dropLast) := by
      simp [ChainReloader.get_task, hget, hpos]
    have hlast : l.getLast? = some (l.getLast hne) :=
      List.getLast?_eq_getLast l hne
    have hstep : drain st u (n + 1)
        = l.getLast hne :: drain (dictInsert st u l.dropLast) u n := by
      simp [drain, hgt, hlast]
    have hrec : drain (dictInsert st u l.dropLast) u n = l.dropLast.reverse :=
      ih (dictInsert st u l.dropLast) l.dropLast
        (dictGet_dictInsert_self st u l.dropLast)
        (by rw [List.length_dropLast]; omega)
    rw [hstep, hrec]
    conv_rhs => rw [← List.dropLast_concat_getLast hne]
    rw [List.reverse_append]
    rfl

/-- In a list sorted descending by `time` whose minimum time is `m`, the last
element is the last element of the subsequence at time `m`. -/
theorem sorted_getLast?_filter_min {A : Type} (m : Int) :
    ∀ (l : List (Chain A)), l.Pairwise (fun a b => cle a b) →
      (∀ c ∈ l, m ≤ c.time) → (∃ c ∈ l, c.time = m) →
      l.getLast? = (l.filter (fun x => decide (x.time = m))).getLast? := by
  intro l
  induction l with
  | nil => intro _ _ _; rfl
  | cons a rest ih =>
    intro hp hmin hex
    have hpc := List.pairwise_cons.1 hp
    by_cases hrest : rest = []
    · subst hrest
      have ha : a.time = m := by
        rcases hex with ⟨c, hc, hct⟩
        have hca : c = a := by simpa using hc
        rw [← hca]
        exact hct
      simp [ha]
    · have hrex : ∃ c ∈ rest, c.time = m := by
        rcases hex with ⟨c, hc, hct⟩
        rcases List.mem_cons.1 hc with hc1 | hc2
        · subst hc1
          obtain ⟨b, hb⟩ := List.exists_mem_of_ne_nil rest hrest
          refine ⟨b, hb, ?_⟩
          have h1 : m ≤ b.time := hmin b (List.mem_cons_of_mem _ hb)
          have h2 : b.time ≤ c.time := by
            have := hpc.1 b hb
            simpa [cle] using this
          omega
        · exact ⟨c, hc2, hct⟩
      have ihres := ih hpc.2 (fun c hc => hmin c (List.mem_cons_of_mem _ hc)) hrex
      have hfne : rest.filter (fun x => decide (x.time = m)) ≠ [] := by
        rcases hrex with ⟨c, hc, hct⟩
        exact List.ne_nil_of_mem (List.mem_filter.2 ⟨hc, by simpa using hct⟩)
      have h1 : (a :: rest).getLast? = rest.getLast? := by
        rcases hr2 : rest with _ | ⟨b, rest2⟩
        · exact absurd hr2 hrest
        · exact List.getLast?_cons_cons
      rw [h1, ihres]
      by_cases hpa : a.time = m
      · have hfc : (a :: rest).filter (fun x => decide (x.time = m))
            = a :: rest.filter (fun x => decide (x.time = m)) := by
          simp [hpa]
        rw [hfc]
        rcases hX : rest.filter (fun x => decide (x.time = m)) with _ | ⟨x, xs⟩
        · exact absurd hX hfne
        · rw [hX, List.getLast?_cons_cons]
      · have hfc : (a :: rest).filter (fun x => decide (x.time = m))
            = rest.filter (fun x => decide (x.time = m)) := by
          simp [hpa]
        rw [hfc]

/-! Claim theorems. -/

/-- C1: the claim says any two Chains constructed separately with default
uuids have distinct uuid values.  The code evaluates `shortuuid.uuid()` once,
when the class body executes, so every default construction shares that one
value: the uuids are always equal, never distinct. -/
theorem chain_default_uuid_shared_across_constructions
    (A B : Type) (classUuid : String) (u1 a1 : String) (t1 : Int) (g1 : A)
    (u2 a2 : String) (t2 : Int) (g2 : B) :
    (Chain.mkDefaultUuid classUuid u1 a1 t1 g1).uuid
      = (Chain.mkDefaultUuid classUuid u2 a2 t2 g2).uuid := rfl

/-- C3: after `AuthReloader.add_task c`, the first `get_task c.uuid` returns
a Chain equal in all fields to `c`, and an immediately following second
`get_task c.uuid` returns absent (exactly-once consumption).  The hypothesis
is that the store's keys are duplicate-free, as every store reachable by the
code's own operations is. -/
theorem auth_add_then_get_exactly_once (A : Type) (st : AuthStore A)
    (c : Chain A) (h : (st.map Prod.fst).Nodup) :
    (AuthReloader.get_task (AuthReloader.add_task st c) c.uuid).1 = some c ∧
      (AuthReloader.get_task
          (AuthReloader.get_task (AuthReloader.add_task st c) c.uuid).2
          c.uuid).1 = none := by
  have hg : dictGet (AuthReloader.add_task st c) c.uuid = some c :=
    dictGet_dictInsert_self st c.uuid c
  have hpop : (AuthReloader.get_task (AuthReloader.add_task st c) c.uuid)
      = (some c, dictRemove (AuthReloader.add_task st c) c.uuid) := by
    simp [AuthReloader.get_task, hg]
  refine ⟨by rw [hpop], ?_⟩
  have hnd : ((AuthReloader.add_task st c).map Prod.fst).Nodup :=
    dictInsert_keys_nodup st c.uuid c h
  rw [hpop]
  simp [AuthReloader.get_task,
    dictGet_dictRemove_self (AuthReloader.add_task st c) c.uuid hnd]

/-- Witness for C3 at a concrete input. -/
theorem auth_add_then_get_exactly_once_witness :
    (([] : AuthStore Nat).map Prod.fst).Nodup ∧
      ((AuthReloader.get_task
          (AuthReloader.add_task ([] : AuthStore Nat) ⟨"u", "addr", 3, 7, "id1"⟩)
          "id1").1 = some ⟨"u", "addr", 3, 7, "id1"⟩ ∧
        (AuthReloader.get_task
            (AuthReloader.get_task
              (AuthReloader.add_task ([] : AuthStore Nat)
                ⟨"u", "addr", 3, 7, "id1"⟩) "id1").2 "id1").1 = none) :=
  ⟨by simp, auth_add_then_get_exactly_once Nat [] ⟨"u", "addr", 3, 7, "id1"⟩
    (by simp)⟩

/-- C4: a candidate whose `pre_check()` is not `True` is never added by the
`listener` registration gate: the manager state is unchanged, hence no
`run_all_check` result ever changes on its account. -/
theorem pre_check_failure_blocks_registration (f : Function) (t : ToolType)
    (m : ToolManager) (h : t.make.pre_check.is_true = false) :
    listener f t m = m ∧
      ∀ (text : String) (ig : Option (List String)),
        (listener f t m).run_all_check text ig = m.run_all_check text ig := by
  have h1 : listener f t m = m := by
    unfold listener
    rw [h]
    rfl
  exact ⟨h1, fun text ig => by rw [h1]⟩

/-- Witness for C4 at a concrete input. -/
theorem pre_check_failure_blocks_registration_witness :
    (ToolType.mk 1 ⟨false, ⟨"broken"⟩, ["x"], none, false,
        PreCheck.ofStr "missing api key"⟩).make.pre_check.is_true = false ∧
      listener ⟨"broken"⟩
          (ToolType.mk 1 ⟨false, ⟨"broken"⟩, ["x"], none, false,
            PreCheck.ofStr "missing api key"⟩) ToolManager.new
        = ToolManager.new :=
  ⟨rfl, (pre_check_failure_blocks_registration ⟨"broken"⟩
    (ToolType.mk 1 ⟨false, ⟨"broken"⟩, ["x"], none, false,
      PreCheck.ofStr "missing api key"⟩) ToolManager.new rfl).1⟩

/-- C5: `func_message` returns the tool's descriptor exactly when the spec's
matching policy fires — a keyword is contained in the text, or no keyword is
and a configured pattern matches (at the start of the text, by `re.match`
semantics, which the `pattern` field embeds) — and absent otherwise. -/
theorem func_message_matches_spec (t : BaseTool) (msg : String) :
    t.func_message msg = if specMatches t msg then some t.function else none := by
  unfold BaseTool.func_message specMatches
  rcases hf : t.keywords.find? (fun i => pyIn i msg) with _ | kw
  · have hany : t.keywords.any (fun kw => pyIn kw msg) = false := by
      rw [List.any_eq_false]
      intro x hx
      simpa using List.find?_eq_none.1 hf x hx
    rw [hany]
    simp only [Bool.false_eq_true, if_false]
    rcases hp : t.pattern with _ | p
    · rfl
    · rcases hb : p msg with _ | _ <;> simp [hb]
  · have hany : t.keywords.any (fun kw => pyIn kw msg) = true :=
      List.any_eq_true.2 ⟨kw, List.mem_of_find?_eq_some hf,
        by simpa using List.find?_some hf⟩
    rw [hany]
    simp

/-- C7: every lookup or dequeue that finds nothing returns an absence value:
`ChainReloader.get_task` on a user with no list or an empty list,
`AuthReloader.get_task` on an unknown uuid, and the four `ToolManager`
lookups on unknown keys. -/
theorem lookup_miss_returns_absent (A : Type) :
    (∀ (st : ChainStore A) (u : String), dictGet st u = none →
        ChainReloader.get_task st u = (none, st)) ∧
      (∀ (st : ChainStore A) (u : String), dictGet st u = some [] →
        ChainReloader.get_task st u = (none, st)) ∧
      (∀ (st : AuthStore A) (u : String), dictGet st u = none →
        AuthReloader.get_task st u = (none, st)) ∧
      (∀ (m : ToolManager) (name : String), name ∉ m.tool.map Prod.fst →
        m.get_tool name = none) ∧
      (∀ (m : ToolManager) (name : String), name ∉ m.function.map Prod.fst →
        m.get_function name = none) ∧
      (∀ (m : ToolManager) (t : ToolType),
        (∀ p ∈ m.tool, p.2.id ≠ t.id) → m.find_tool t = none) ∧
      (∀ (m : ToolManager) (f : Function),
        (∀ p ∈ m.function, p.2 ≠ f) → m.find_function f = none) := by
  refine ⟨?_, ?_, ?_, ?_, ?_, ?_, ?_⟩
  · intro st u h
    simp [ChainReloader.get_task, h]
  · intro st u h
    simp [ChainReloader.get_task, h]
  · intro st u h
    simp [AuthReloader.get_task, h]
  · intro m name h
    exact dictGet_eq_none_of_not_mem m.tool name h
  · intro m name h
    exact dictGet_eq_none_of_not_mem m.function name h
  · intro m t h
    exact findToolGo_eq_none t m.tool h
  · intro m f h
    exact findFunctionGo_eq_none f m.function h

/-- Witness for C7 at concrete inputs. -/
theorem lookup_miss_returns_absent_witness :
    (dictGet ([] : ChainStore Nat) "u" = none ∧
        ChainReloader.get_task ([] : ChainStore Nat) "u" = (none, [])) ∧
      (dictGet [("u", ([] : List (Chain Nat)))] "u" = some [] ∧
        ChainReloader.get_task [("u", ([] : List (Chain Nat)))] "u"
          = (none, [("u", [])])) ∧
      (dictGet ([] : AuthStore Nat) "id9" = none ∧
        AuthReloader.get_task ([] : AuthStore Nat) "id9" = (none, [])) ∧
      (ToolManager.new.get_tool "nope" = none) ∧
      (ToolManager.new.get_function "nope" = none) ∧
      (ToolManager.new.find_tool
          ⟨9, ⟨false, ⟨"f"⟩, [], none, false, PreCheck.ofBool true⟩⟩ = none) ∧
      (ToolManager.new.find_function ⟨"f"⟩ = none) :=
  ⟨⟨rfl, (lookup_miss_returns_absent Nat).1 [] "u" rfl⟩,
    ⟨rfl, (lookup_miss_returns_absent Nat).2.1 [("u", [])] "u" rfl⟩,
    ⟨rfl, (lookup_miss_returns_absent Nat).2.2.1 [] "id9" rfl⟩,
    (lookup_miss_returns_absent Nat).2.2.2.1 ToolManager.new "nope" (by simp [ToolManager.new]),
    (lookup_miss_returns_absent Nat).2.2.2.2.1 ToolManager.new "nope" (by simp [ToolManager.new]),
    (lookup_miss_returns_absent Nat).2.2.2.2.2.1 ToolManager.new
      ⟨9, ⟨false, ⟨"f"⟩, [], none, false, PreCheck.ofBool true⟩⟩
      (by simp [ToolManager.new]),
    (lookup_miss_returns_absent Nat).2.2.2.2.2.2 ToolManager.new ⟨"f"⟩
      (by simp [ToolManager.new])⟩

/-- C8: starting from a fresh `ToolManager`, after any sequence of `add_tool`
calls (the only mutating operation) the `__tool` and `__function` dicts have
identical key sequences, hence identical key sets. -/
theorem tool_function_key_sets_equal
    (ops : List (String × Function × ToolType)) :
    (ToolManager.applyAdds ToolManager.new ops).tool.map Prod.fst
      = (ToolManager.applyAdds ToolManager.new ops).function.map Prod.fst :=
  applyAdds_keys ops ToolManager.new rfl

/-- C6: for every manager reachable from a fresh one by `add_tool` calls,
`run_all_check` returns exactly the descriptors (each present, wrapped in
`some` by the source's `Optional` return of `get_function`) of the registered
tools whose freshly instantiated handler matches the text and whose name is
not ignored, in registry insertion order — which is what `specMatchTools`,
written from the spec's words, computes. -/
theorem run_all_check_exactly_matching_descriptors
    (ops : List (String × Function × ToolType)) (text : String)
    (ig : List String) :
    (ToolManager.applyAdds ToolManager.new ops).run_all_check text (some ig)
      = (specMatchTools (ToolManager.applyAdds ToolManager.new ops) text
          ig).map some := by
  have hkeys := applyAdds_keys ops ToolManager.new rfl
  have hsome : ∀ p ∈ (ToolManager.applyAdds ToolManager.new ops).tool.filter
      (fun p => (p.2.make.func_message text).isSome && !(ig.contains p.1)),
      ((ToolManager.applyAdds ToolManager.new ops).get_function p.1).isSome := by
    intro p hp
    have hp2 := List.mem_of_mem_filter hp
    have hmem : p.1 ∈ (ToolManager.applyAdds ToolManager.new ops).tool.map Prod.fst :=
      List.mem_map_of_mem Prod.fst hp2
    rw [hkeys] at hmem
    exact (dictGet_isSome_iff_mem
      (ToolManager.applyAdds ToolManager.new ops).function p.1).2 hmem
  unfold ToolManager.run_all_check
  simp only [Option.getD_some]
  rw [ToolManager.get_all_tool, runAllCheckGo_eq]
  unfold specMatchTools
  rw [filterMap_map_some _ _ hsome]

/-- C9: the stores are class-level state: an add through one instance is
visible to a get through a different instance, both for the auth store and
for the chain store. -/
theorem stores_shared_across_instances (A : Type) (i j : Nat) (hij : i ≠ j)
    (stA : AuthStore A) (c : Chain A) (stC : ChainStore A) (d : Chain A)
    (hd : dictGet stC d.user_id = none) :
    ((AuthReloaderInstance.new A j).get_task
        ((AuthReloaderInstance.new A i).add_task stA c).1 c.uuid).1 = some c ∧
      ((ChainReloaderInstance.new A j).get_task
        ((ChainReloaderInstance.new A i).add_task stC d).1 d.user_id).1
        = some d := by
  constructor
  · simp [AuthReloaderInstance.new, AuthReloaderInstance.add_task,
      AuthReloaderInstance.get_task, AuthReloader.get_task,
      AuthReloader.add_task, dictGet_dictInsert_self]
  · have hentry : dictGet (ChainReloader.add_task stC d) d.user_id
        = some [d] := by
      simp [ChainReloader.add_task, hd, dictGet_dictInsert_self]
    simp [ChainReloaderInstance.new, ChainReloaderInstance.add_task,
      ChainReloaderInstance.get_task, ChainReloader.get_task, hentry]

/-- Witness for C9 at concrete inputs. -/
theorem stores_shared_across_instances_witness :
    (0 : Nat) ≠ 1 ∧
      dictGet ([] : ChainStore Nat)
          (Chain.user_id ⟨"v", "b", 1, 6, "vv"⟩) = none ∧
      ((AuthReloaderInstance.new Nat 1).get_task
          ((AuthReloaderInstance.new Nat 0).add_task ([] : AuthStore Nat)
            ⟨"u", "a", 0, 5, "uu"⟩).1 "uu").1 = some ⟨"u", "a", 0, 5, "uu"⟩ ∧
      ((ChainReloaderInstance.new Nat 1).get_task
          ((ChainReloaderInstance.new Nat 0).add_task ([] : ChainStore Nat)
            ⟨"v", "b", 1, 6, "vv"⟩).1 "v").1 = some ⟨"v", "b", 1, 6, "vv"⟩ :=
  ⟨by decide, rfl,
    (stores_shared_across_instances Nat 0 1 (by decide) [] ⟨"u", "a", 0, 5, "uu"⟩
      [] ⟨"v", "b", 1, 6, "vv"⟩ rfl).1,
    (stores_shared_across_instances Nat 0 1 (by decide) [] ⟨"u", "a", 0, 5, "uu"⟩
      [] ⟨"v", "b", 1, 6, "vv"⟩ rfl).2⟩

/-- C2: for any insertion sequence for one user starting from an empty store,
repeatedly dequeuing returns all the inserted Chains (a permutation of the
inserts) in ascending order of their `time` field, regardless of insertion
order. -/
theorem chain_dequeue_ascending_time (A : Type) (u : String)
    (cs : List (Chain A)) (h : ∀ c ∈ cs, c.user_id = u) :
    (drain (addAll ([] : ChainStore A) cs) u cs.length).Perm cs ∧
      (drain (addAll ([] : ChainStore A) cs) u cs.length).Pairwise
        (fun a b => a.time ≤ b.time) := by
  by_cases hne : cs = []
  · subst hne
    exact ⟨List.Perm.refl _, by simp [drain, addAll]⟩
  · obtain ⟨hperm, hsorted, -⟩ :=
      addAll_inv u cs ([] : ChainStore A) h (by simp [entry, dictGet])
    have hget := dictGet_addAll_cons u cs ([] : ChainStore A) h hne
    have hpermcs : (entry (addAll ([] : ChainStore A) cs) u).Perm cs := by
      simpa [entry, dictGet] using hperm
    have hlen : cs.length = (entry (addAll ([] : ChainStore A) cs) u).length :=
      hpermcs.length_eq.symm
    have hdrain := drain_of_dictGet u cs.length (addAll ([] : ChainStore A) cs)
      (entry (addAll ([] : ChainStore A) cs) u) hget hlen
    rw [hdrain]
    constructor
    · exact (List.reverse_perm _).trans hpermcs
    · rw [List.pairwise_reverse]
      exact hsorted.imp (fun hab => by simpa [cle] using hab)

/-- Witness for C2: the spec's example, times 5, 1, 3 for one user. -/
theorem chain_dequeue_ascending_time_witness :
    (∀ c ∈ [(⟨"u", "a", 5, 0, "i1"⟩ : Chain Nat), ⟨"u", "a", 1, 0, "i2"⟩,
        ⟨"u", "a", 3, 0, "i3"⟩], c.user_id = "u") ∧
      ((drain (addAll ([] : ChainStore Nat)
            [⟨"u", "a", 5, 0, "i1"⟩, ⟨"u", "a", 1, 0, "i2"⟩,
              ⟨"u", "a", 3, 0, "i3"⟩]) "u" 3).Perm
          [⟨"u", "a", 5, 0, "i1"⟩, ⟨"u", "a", 1, 0, "i2"⟩,
            ⟨"u", "a", 3, 0, "i3"⟩] ∧
        (drain (addAll ([] : ChainStore Nat)
            [⟨"u", "a", 5, 0, "i1"⟩, ⟨"u", "a", 1, 0, "i2"⟩,
              ⟨"u", "a", 3, 0, "i3"⟩]) "u" 3).Pairwise
          (fun a b => a.time ≤ b.time)) :=
  ⟨by decide, chain_dequeue_ascending_time Nat "u"
    [⟨"u", "a", 5, 0, "i1"⟩, ⟨"u", "a", 1, 0, "i2"⟩, ⟨"u", "a", 3, 0, "i3"⟩]
    (by decide)⟩

/-- C10: when several Chains enqueued for one user share the minimum time
value `m`, `get_task` returns the most recently enqueued of them: the dequeued
Chain is the last element, in insertion order, of the inserts whose time is
`m` (the stable descending sort keeps equal-time elements in insertion order
and the pop takes the list end). -/
theorem equal_time_ties_dequeue_lifo (A : Type) (u : String)
    (cs : List (Chain A)) (m : Int) (hne : cs ≠ [])
    (hu : ∀ c ∈ cs, c.user_id = u) (hmem : ∃ c ∈ cs, c.time = m)
    (hmin : ∀ c ∈ cs, m ≤ c.time) :
    (ChainReloader.get_task (addAll ([] : ChainStore A) cs) u).1
      = (cs.filter (fun c => decide (c.time = m))).getLast? := by
  obtain ⟨hperm, hsorted, hfilter⟩ :=
    addAll_inv u cs ([] : ChainStore A) hu (by simp [entry, dictGet])
  have hget := dictGet_addAll_cons u cs ([] : ChainStore A) hu hne
  have hpermcs : (entry (addAll ([] : ChainStore A) cs) u).Perm cs := by
    simpa [entry, dictGet] using hperm
  have hlne : entry (addAll ([] : ChainStore A) cs) u ≠ [] := by
    intro h0
    apply hne
    have := hpermcs.length_eq
    rw [h0] at this
    exact List.length_eq_zero.1 this.symm
  have hlpos : 0 < (entry (addAll ([] : ChainStore A) cs) u).length :=
    List.length_pos.2 hlne
  have hres : (ChainReloader.get_task (addAll ([] : ChainStore A) cs) u).1
      = (entry (addAll ([] : ChainStore A) cs) u).getLast? := by
    simp [ChainReloader.get_task, hget, hlpos]
  rw [hres]
  have hminl : ∀ c ∈ entry (addAll ([] : ChainStore A) cs) u, m ≤ c.time :=
    fun c hc => hmin c (hpermcs.mem_iff.1 hc)
  have hmeml : ∃ c ∈ entry (addAll ([] : ChainStore A) cs) u, c.time = m := by
    rcases hmem with ⟨c, hc, hct⟩
    exact ⟨c, hpermcs.mem_iff.2 hc, hct⟩
  rw [sorted_getLast?_filter_min m _ hsorted hminl hmeml, hfilter m]
  simp [entry, dictGet]

/-- Witness for C10: three inserts with times 2, 1, 1; the two ties at the
minimum time 1 are dequeued most-recent-first. -/
theorem equal_time_ties_dequeue_lifo_witness :
    ([(⟨"u", "a", 2, 0, "i1"⟩ : Chain Nat), ⟨"u", "a", 1, 0, "i2"⟩,
        ⟨"u", "a", 1, 0, "i3"⟩] ≠ []) ∧
      (∀ c ∈ [(⟨"u", "a", 2, 0, "i1"⟩ : Chain Nat), ⟨"u", "a", 1, 0, "i2"⟩,
          ⟨"u", "a", 1, 0, "i3"⟩], c.user_id = "u") ∧
      (∃ c ∈ [(⟨"u", "a", 2, 0, "i1"⟩ : Chain Nat), ⟨"u", "a", 1, 0, "i2"⟩,
          ⟨"u", "a", 1, 0, "i3"⟩], c.time = 1) ∧
      (∀ c ∈ [(⟨"u", "a", 2, 0, "i1"⟩ : Chain Nat), ⟨"u", "a", 1, 0, "i2"⟩,
          ⟨"u", "a", 1, 0, "i3"⟩], (1 : Int) ≤ c.time) ∧
      (ChainReloader.get_task (addAll ([] : ChainStore Nat)
            [⟨"u", "a", 2, 0, "i1"⟩, ⟨"u", "a", 1, 0, "i2"⟩,
              ⟨"u", "a", 1, 0, "i3"⟩]) "u").1
        = ([(⟨"u", "a", 2, 0, "i1"⟩ : Chain Nat), ⟨"u", "a", 1, 0, "i2"⟩,
              ⟨"u", "a", 1, 0, "i3"⟩].filter
            (fun c => decide (c.time = 1))).getLast? :=
  ⟨by decide, by decide, by decide, by decide,
    equal_time_ties_dequeue_lifo Nat "u"
      [⟨"u", "a", 2, 0, "i1"⟩, ⟨"u", "a", 1, 0, "i2"⟩, ⟨"u", "a", 1, 0, "i3"⟩]
      1 (by decide) (by decide) (by decide) (by decide)⟩

end FuncCall
